import Mathlib

/-!
Verification development for a sharded, durable key-value store:
a write-ahead-logged storage engine per shard, with keys placed across
shards by a consistent-hash ring with virtual nodes.

Shallow embedding notes.

Python dictionaries are modelled as insertion-ordered association lists
with unique keys: assignment replaces the binding in place when the key
is present and appends otherwise; deletion removes the binding.

The WAL file is modelled as the list of its lines.  A line is either
text that fails to parse as JSON, or text that parses as a JSON value
that is not an object (a bare number, string, array, boolean or null),
or a parsed object carrying optional fields op, key, value, ts (an
object may lack any of them; the timestamp is written by append but
never read by replay).  Replay is Except-valued: subscripting a parsed
non-object value raises TypeError, which the replay loop does not
catch, so it aborts the whole replay; this uncaught-exception path is
the error case.  Logging (warnings on skipped records) is not
modelled; the observable behaviour of replay is the returned map or
the propagated exception.

The SHA-256 based position hash of the ring is modelled as an abstract
function parameter (String to Nat): every claim below concerns the ring
search, insertion and removal logic, which is parametric in the digest.

Async locks serialise operations; the embedding is the sequential
semantics of the critical sections.  Wall-clock timestamps are passed
as explicit arguments.
-/

deriving instance DecidableEq for Except

/-- Lookup in a Python-style dict modelled as an association list:
the value of the first binding whose key matches, if any. -/
def dGet {α β : Type} [DecidableEq α] : List (α × β) → α → Option β
  | [], _ => none
  | (k0, v0) :: t, k => if k0 = k then some v0 else dGet t k

/-- Python dict assignment m[k] = v: replace the binding in place when
the key is present, append a new binding otherwise. -/
def dPut {α β : Type} [DecidableEq α] : List (α × β) → α → β → List (α × β)
  | [], k, v => [(k, v)]
  | (k0, v0) :: t, k, v => if k0 = k then (k, v) :: t else (k0, v0) :: dPut t k v

/-- Python dict deletion (del m[k], or m.pop(k, None)): remove the first
binding whose key matches; leave the dict unchanged when absent. -/
def dDel {α β : Type} [DecidableEq α] : List (α × β) → α → List (α × β)
  | [], _ => []
  | (k0, v0) :: t, k => if k0 = k then t else (k0, v0) :: dDel t k

/-- One line of a WAL file, after the JSON parsing attempt of replay.
A blank line (skipped before parsing), unparseable text
(JSONDecodeError), and a line that parses as a JSON value that is not
an object (a bare number such as 42, a string, an array, a boolean or
null -- subscripting it raises TypeError) are kept distinct for
fidelity to the source; a parsed JSON object may carry or lack each of
the fields op, key, value, ts. -/
inductive WalLine : Type
  | blank : WalLine
  | malformed : WalLine
  | nonObject : WalLine
  | entry (op : Option String) (key : Option String)
      (value : Option String) (ts : Option Int) : WalLine
deriving DecidableEq, Repr

namespace WriteAheadLog

/-- WriteAheadLog.append: serialise op, key, ts, and value when it is
not None, as one JSON line and append it to the log file. -/
def append (log : List WalLine) (operation : String) (key : String)
    (value : Option String) (ts : Int) : List WalLine :=
  log ++ [WalLine.entry (some operation) (some key) value (some ts)]

/-- The body of the replay loop for a single line: skip blank lines;
skip lines that fail to parse (JSONDecodeError, caught); on a line
that parses as non-object JSON, subscripting it raises TypeError,
which the loop does not catch -- the error propagates; otherwise look
up op then key (a missing one raises KeyError, caught and skipped),
apply PUT as an upsert (a PUT lacking value is skipped by the same
KeyError path), DELETE as a removal, and skip an unrecognised op with
a warning. -/
def replayLine (state : List (String × String)) (l : WalLine) :
    Except String (List (String × String)) :=
  match l with
  | WalLine.blank => Except.ok state
  | WalLine.malformed => Except.ok state
  | WalLine.nonObject => Except.error "TypeError"
  | WalLine.entry op key value _ =>
    match op, key with
    | some o, some k =>
      if o = "PUT" then
        match value with
        | some v => Except.ok (dPut state k v)
        | none => Except.ok state
      else if o = "DELETE" then Except.ok (dDel state k)
      else Except.ok state
    | _, _ => Except.ok state

/-- The replay loop over the remaining lines: an uncaught exception
from a line aborts the loop and propagates. -/
def replayLoop (state : List (String × String)) :
    List WalLine → Except String (List (String × String))
  | [] => Except.ok state
  | l :: rest =>
    match replayLine state l with
    | Except.ok s2 => replayLoop s2 rest
    | Except.error e => Except.error e

/-- WriteAheadLog.replay: fold every line of the file, in file order,
onto a fresh empty map and return the result -- or propagate the
uncaught exception of a non-object line. -/
def replay (log : List WalLine) : Except String (List (String × String)) :=
  replayLoop [] log

end WriteAheadLog

/-- A call to WriteAheadLog.append as the storage engine issues it:
a PUT carries a key and a value, a DELETE carries a key; both carry
the wall-clock timestamp taken at the time of the call. -/
inductive AppendCall : Type
  | put (key value : String) (ts : Int) : AppendCall
  | del (key : String) (ts : Int) : AppendCall
deriving DecidableEq, Repr

/-- The log line a single append call writes (via WriteAheadLog.append:
PUT passes the value, DELETE passes None so no value field is written). -/
def encodeCall : AppendCall → WalLine
  | AppendCall.put k v ts => WalLine.entry (some "PUT") (some k) (some v) (some ts)
  | AppendCall.del k ts => WalLine.entry (some "DELETE") (some k) none (some ts)

/-- Run a sequence of append calls against a log, each through
WriteAheadLog.append, in order. -/
def appendCalls (log : List WalLine) : List AppendCall → List WalLine
  | [] => log
  | AppendCall.put k v ts :: rest =>
      appendCalls (WriteAheadLog.append log "PUT" k (some v) ts) rest
  | AppendCall.del k ts :: rest =>
      appendCalls (WriteAheadLog.append log "DELETE" k none ts) rest

/-- Modelled from the spec: the reference fold of a sequence of
operations over an empty map, PUT as upsert and DELETE as removal,
in append order. -/
def applyCall (state : List (String × String)) : AppendCall → List (String × String)
  | AppendCall.put k v _ => dPut state k v
  | AppendCall.del k _ => dDel state k

/-- The class of lines replay skips: text that fails to parse, a
parsed record lacking a required field for its operation (op and key
for both operations, value for PUT), or an unrecognised operation
tag.  Blank lines never reach the parser and are skipped as well.  A
line parsing as non-object JSON is deliberately not in this class:
replay does not skip it but aborts on it (see the C3 theorem). -/
def isBadLine : WalLine → Bool
  | WalLine.blank => true
  | WalLine.malformed => true
  | WalLine.nonObject => false
  | WalLine.entry op key value _ =>
    match op, key with
    | some o, some _ =>
      if o = "PUT" then value.isNone
      else decide (o ≠ "DELETE")
    | _, _ => true

/-- State of a StorageEngine: its WAL file content, the in-memory map,
and the closed flag.  The asyncio locks are not part of the sequential
state. -/
structure StorageEngine : Type where
  wal : List WalLine
  store : List (String × String)
  closed : Bool
deriving DecidableEq, Repr

namespace StorageEngine

/-- StorageEngine construction on an existing log file: empty map,
not closed, the WAL file untouched. -/
def mk0 (log : List WalLine) : StorageEngine :=
  { wal := log, store := [], closed := false }

/-- The startup step of a StorageEngine (its source method is named for
initialisation): replay the WAL into the in-memory map.  An exception
propagating out of replay propagates out of startup as well, and the
store assignment never happens. -/
def restore (e : StorageEngine) : Except String StorageEngine :=
  match WriteAheadLog.replay e.wal with
  | Except.ok m => Except.ok { e with store := m }
  | Except.error err => Except.error err

/-- StorageEngine.get: read the map under the lock; None when absent. -/
def get (e : StorageEngine) (key : String) : Option String :=
  dGet e.store key

/-- StorageEngine.put: append a PUT record to the WAL, then upsert the
in-memory map, all under the lock. -/
def put (e : StorageEngine) (key value : String) (ts : Int) : StorageEngine :=
  { e with
    wal := WriteAheadLog.append e.wal "PUT" key (some value) ts
    store := dPut e.store key value }

/-- StorageEngine.delete: when the key is absent return false at once,
writing nothing; otherwise append a DELETE record, remove the key from
the map and return true. -/
def delete (e : StorageEngine) (key : String) (ts : Int) : StorageEngine × Bool :=
  match dGet e.store key with
  | none => (e, false)
  | some _ =>
    ({ e with
        wal := WriteAheadLog.append e.wal "DELETE" key none ts
        store := dDel e.store key }, true)

/-- StorageEngine.exists: membership test on the map under the lock. -/
def existsKey (e : StorageEngine) (key : String) : Bool :=
  (dGet e.store key).isSome

/-- StorageEngine.size: number of keys in the map. -/
def size (e : StorageEngine) : Nat :=
  e.store.length

/-- StorageEngine.close: return at once when already closed, otherwise
close the WAL (a no-op on the file) and set the closed flag. -/
def close (e : StorageEngine) : StorageEngine :=
  if e.closed then e else { e with closed := true }

end StorageEngine

/-- State of a ConsistentHashRing: virtual-node count per physical node,
the sorted list of ring positions, the position-to-node dict, and the
set of registered physical nodes (kept as its insertion-ordered list;
only membership is ever consulted). -/
structure ConsistentHashRing : Type where
  num_vnodes : Nat
  ring : List Nat
  ring_map : List (Nat × String)
  nodes : List String
deriving DecidableEq, Repr

namespace ConsistentHashRing

/-- Ring construction: no nodes, no positions. -/
def mk0 (num_vnodes : Nat) : ConsistentHashRing :=
  { num_vnodes := num_vnodes, ring := [], ring_map := [], nodes := [] }

/-- bisect.bisect_right on a sorted list: the number of leading elements
not exceeding x, which is the index of the first element strictly
greater than x when one exists.  (The source binary search and this
linear recursion agree on sorted lists, the only lists the ring keeps.) -/
def bisect_right : List Nat → Nat → Nat
  | [], _ => 0
  | y :: ys, x => if y ≤ x then bisect_right ys x + 1 else 0

/-- bisect.insort on a sorted list: insert x after any elements equal
to it, keeping the list sorted. -/
def insort : List Nat → Nat → List Nat
  | [], x => [x]
  | y :: ys, x => if y ≤ x then y :: insort ys x else x :: y :: ys

/-- Python list.remove: drop the first occurrence of x, if any. -/
def listRemove : List Nat → Nat → List Nat
  | [], _ => []
  | y :: ys, x => if y = x then ys else y :: listRemove ys x

/-- The vnode positions generated for one physical node: the hash of
the vnode key built from the node id, a colon, and each vnode index
below num_vnodes.  The digest function is the abstract hash parameter. -/
def vnodePositions (hash : String → Nat) (node_id : String) (num_vnodes : Nat) :
    List Nat :=
  (List.range num_vnodes).map (fun i => hash (node_id ++ ":" ++ toString i))

/-- The loop body of add_node for one vnode position: insert it into
the sorted ring and bind it to the node in the position dict. -/
def addPos (r : ConsistentHashRing) (node_id : String) (p : Nat) :
    ConsistentHashRing :=
  { r with ring := insort r.ring p, ring_map := dPut r.ring_map p node_id }

/-- ConsistentHashRing.add_node: a warned no-op when the node is already
registered; otherwise register it and insert all its vnode positions. -/
def add_node (hash : String → Nat) (r : ConsistentHashRing) (node_id : String) :
    ConsistentHashRing :=
  if node_id ∈ r.nodes then r
  else
    (vnodePositions hash node_id r.num_vnodes).foldl
      (fun r p => addPos r node_id p)
      { r with nodes := r.nodes ++ [node_id] }

/-- The loop body of remove_node for one position to remove: drop its
first occurrence from the ring and its binding from the position dict. -/
def removePos (r : ConsistentHashRing) (p : Nat) : ConsistentHashRing :=
  { r with ring := listRemove r.ring p, ring_map := dDel r.ring_map p }

/-- ConsistentHashRing.remove_node: a warned no-op when the node is not
registered; otherwise deregister it and remove every position the
position dict binds to it. -/
def remove_node (r : ConsistentHashRing) (node_id : String) : ConsistentHashRing :=
  if node_id ∈ r.nodes then
    ((r.ring_map.filter (fun pn => pn.2 = node_id)).map Prod.fst).foldl removePos
      { r with nodes := r.nodes.filter (fun n => n ≠ node_id) }
  else r

/-- ConsistentHashRing.get_node: None on an empty ring; otherwise hash
the key, locate the first position strictly greater by bisect_right,
wrap to index 0 past the end, and look the position up in the position
dict.  Out-of-range indexing and a missing dict binding are the
IndexError and KeyError paths of the source, modelled as errors. -/
def get_node (hash : String → Nat) (r : ConsistentHashRing) (key : String) :
    Except String (Option String) :=
  if r.ring = [] then Except.ok none
  else
    let position := hash key
    let idx0 := bisect_right r.ring position
    let idx := if idx0 = r.ring.length then 0 else idx0
    match r.ring[idx]? with
    | none => Except.error "IndexError"
    | some ring_position =>
      match dGet r.ring_map ring_position with
      | none => Except.error "KeyError"
      | some node_id => Except.ok (some node_id)

end ConsistentHashRing

/-- An administrative call against the ring. -/
inductive RingOp : Type
  | add (node_id : String) : RingOp
  | remove (node_id : String) : RingOp
deriving DecidableEq, Repr

/-- Apply one administrative call. -/
def applyRingOp (hash : String → Nat) (r : ConsistentHashRing) :
    RingOp → ConsistentHashRing
  | RingOp.add nid => ConsistentHashRing.add_node hash r nid
  | RingOp.remove nid => ConsistentHashRing.remove_node r nid

/-- Apply a sequence of administrative calls in order. -/
def applyRingOps (hash : String → Nat) (r : ConsistentHashRing) :
    List RingOp → ConsistentHashRing
  | [] => r
  | op :: rest => applyRingOps hash (applyRingOp hash r op) rest

/-- Boolean sortedness of a list of positions (adjacent pairs in
non-decreasing order). -/
def sortedLE : List Nat → Bool
  | [] => true
  | [_] => true
  | a :: b :: t => decide (a ≤ b) && sortedLE (b :: t)

/-- Boolean coherence of a ring state: every ring position is bound in
the position dict, to a currently registered node.  This is the
documented ring invariant; it can only fail after a vnode position
collision (positions not mutually distinct). -/
def coherentB (r : ConsistentHashRing) : Bool :=
  r.ring.all (fun p =>
    match dGet r.ring_map p with
    | some n => decide (n ∈ r.nodes)
    | none => false)

/-- Modelled from the spec: the ring position that should own a key
hashing to x, namely the first position strictly greater than x, or
the lowest (first, since sorted) position when x is at least every
position in the ring. -/
def targetPos (r : ConsistentHashRing) (x : Nat) : Nat :=
  (r.ring.find? (fun p => decide (x < p))).getD (r.ring.headD 0)

/-- A filesystem action, as construction and startup code performs
them; the effect traces below list such actions in program order. -/
inductive FsEffect : Type
  | makedirs (path : String) : FsEffect
  | ensureFile (path : String) : FsEffect
deriving DecidableEq, Repr

/-- State of a ShardManager: the fixed shard id list, the base data
directory, the shard dict (empty until startup builds the engines),
and the hash ring. -/
structure ShardManager : Type where
  shard_ids : List String
  data_dir : String
  shards : List (String × StorageEngine)
  hash_ring : ConsistentHashRing
deriving DecidableEq, Repr

namespace ShardManager

/-- ShardManager construction: record the shard ids and the data
directory, start with no engines and an empty ring, and create the
data directory (os.makedirs with exist_ok) -- the one filesystem
action the constructor performs, returned as the effect trace.  WAL
files are only created later, when startup constructs the engines. -/
def mk0 (shard_ids : List String) (data_dir : String) (num_vnodes : Nat) :
    ShardManager × List FsEffect :=
  ({ shard_ids := shard_ids
     data_dir := data_dir
     shards := []
     hash_ring := ConsistentHashRing.mk0 num_vnodes },
   [FsEffect.makedirs data_dir])

/-- ShardManager.close: iterate the shard dict in order and await the
close of each engine.  The loop body has no exception handler, so a
failing close propagates out of the loop at once.  The close of each
engine is abstracted by its outcome (in the source an engine close
cannot in fact fail; the failure branch gives the hypothetical of the
claim its content).  Returns the overall outcome together with the
ids of the shards whose close was actually invoked, in order. -/
def closeAll : List (String × Except String Unit) →
    Except String Unit × List String
  | [] => (Except.ok (), [])
  | (sid, Except.ok _) :: rest =>
    let r := closeAll rest
    (r.1, sid :: r.2)
  | (sid, Except.error e) :: _ => (Except.error e, [sid])

end ShardManager

/-! Helper lemmas. -/

/-- Running append calls against a log appends their encodings. -/
lemma appendCalls_eq (calls : List AppendCall) :
    ∀ log, appendCalls log calls = log ++ calls.map encodeCall := by
  induction calls with
  | nil => intro log; simp [appendCalls]
  | cons c rest ih =>
    intro log
    cases c with
    | put k v ts =>
      simp [appendCalls, WriteAheadLog.append, encodeCall, ih]
    | del k ts =>
      simp [appendCalls, WriteAheadLog.append, encodeCall, ih]

/-- Replaying the encoding of one append call never raises and is the
reference fold step of the spec. -/
lemma replayLine_encodeCall (m : List (String × String)) (c : AppendCall) :
    WriteAheadLog.replayLine m (encodeCall c) = Except.ok (applyCall m c) := by
  cases c with
  | put k v ts => rfl
  | del k ts => rfl

/-- The replay loop over encoded calls never raises and computes the
reference fold. -/
lemma replayLoop_encode (calls : List AppendCall) :
    ∀ m, WriteAheadLog.replayLoop m (calls.map encodeCall) =
      Except.ok (calls.foldl applyCall m) := by
  induction calls with
  | nil => intro m; rfl
  | cons c rest ih =>
    intro m
    rw [List.map_cons, List.foldl_cons, WriteAheadLog.replayLoop,
      replayLine_encodeCall]
    exact ih (applyCall m c)

/-- A bad line is skipped: it leaves the replay state untouched and
raises nothing. -/
lemma replayLine_bad (m : List (String × String)) (l : WalLine)
    (hb : isBadLine l = true) :
    WriteAheadLog.replayLine m l = Except.ok m := by
  cases l with
  | blank => rfl
  | malformed => rfl
  | nonObject => simp [isBadLine] at hb
  | entry op key value ts =>
    cases op with
    | none => rfl
    | some o =>
      cases key with
      | none => rfl
      | some k =>
        by_cases ho : o = "PUT"
        · subst ho
          simp [isBadLine, Option.isNone_iff_eq_none] at hb
          subst hb
          rfl
        · by_cases hd : o = "DELETE"
          · subst hd
            simp [isBadLine] at hb
          · simp [WriteAheadLog.replayLine, ho, hd]

/-- The replay loop over an appended log runs the first part, then
feeds its state into the second part; an exception in the first part
propagates. -/
lemma replayLoop_append (xs ys : List WalLine) :
    ∀ s, WriteAheadLog.replayLoop s (xs ++ ys) =
      (WriteAheadLog.replayLoop s xs).bind
        (fun s2 => WriteAheadLog.replayLoop s2 ys) := by
  induction xs with
  | nil => intro s; rfl
  | cons l rest ih =>
    intro s
    cases h : WriteAheadLog.replayLine s l with
    | ok s2 =>
      simp only [List.cons_append, WriteAheadLog.replayLoop, h]
      exact ih s2
    | error e =>
      simp only [List.cons_append, WriteAheadLog.replayLoop, h]
      rfl

/-- A line of the skipped class anywhere in the log does not change
the replay result: replay of the log with the line equals replay of
the log without it, so every later well-formed record still applies.
(This covers exactly the corruption classes the source catches; a
non-object line is not in this class and aborts replay instead.) -/
lemma wal_replay_skips_bad_record (pre : List WalLine) (l : WalLine)
    (post : List WalLine) (hb : isBadLine l = true) :
    WriteAheadLog.replay (pre ++ l :: post) =
      WriteAheadLog.replay (pre ++ post) := by
  rw [WriteAheadLog.replay, WriteAheadLog.replay, replayLoop_append,
    replayLoop_append]
  cases h : WriteAheadLog.replayLoop [] pre with
  | ok s2 =>
    show WriteAheadLog.replayLoop s2 (l :: post) =
      WriteAheadLog.replayLoop s2 post
    rw [WriteAheadLog.replayLoop, replayLine_bad s2 l hb]
  | error e => rfl

/-- The ring element at the bisect_right index is the first element
strictly greater than the query, when one exists (and the index is
past the end exactly when none exists). -/
lemma bisect_right_getElem (x : Nat) :
    ∀ l : List Nat,
      l[ConsistentHashRing.bisect_right l x]? =
        l.find? (fun p => decide (x < p)) := by
  intro l
  induction l with
  | nil => rfl
  | cons y ys ih =>
    by_cases h : y ≤ x
    · have hnot : ¬ x < y := not_lt.mpr h
      simp [ConsistentHashRing.bisect_right, h, List.find?, hnot, ih]
    · have hlt : x < y := not_le.mp h
      simp [ConsistentHashRing.bisect_right, h, List.find?, hlt]

/-- The bisect_right index never exceeds the list length. -/
lemma bisect_right_le_length (x : Nat) :
    ∀ l : List Nat, ConsistentHashRing.bisect_right l x ≤ l.length := by
  intro l
  induction l with
  | nil => exact Nat.le_refl 0
  | cons y ys ih =>
    by_cases h : y ≤ x
    · simpa [ConsistentHashRing.bisect_right, h] using Nat.succ_le_succ ih
    · simp [ConsistentHashRing.bisect_right, h]

/-- The bisect_right index is the length exactly when no element is
strictly greater than the query. -/
lemma bisect_right_eq_length_iff (x : Nat) (l : List Nat) :
    ConsistentHashRing.bisect_right l x = l.length ↔
      l.find? (fun p => decide (x < p)) = none := by
  constructor
  · intro h
    rw [← bisect_right_getElem x l, h]
    exact List.getElem?_len_le (Nat.le_refl _)
  · intro h
    have hb := bisect_right_getElem x l
    rw [h] at hb
    have hle := List.getElem?_eq_none_iff.mp hb
    exact Nat.le_antisymm (bisect_right_le_length x l) hle

/-- The Boolean sortedness test agrees with chains of adjacent
comparisons. -/
lemma sortedLE_iff_chain :
    ∀ l : List Nat, sortedLE l = true ↔ List.Chain' (· ≤ ·) l
  | [] => by simp [sortedLE]
  | [a] => by simp [sortedLE]
  | a :: b :: t => by
    have ih := sortedLE_iff_chain (b :: t)
    simp [sortedLE, List.chain'_cons, ih, and_comm]

/-- The Boolean sortedness test agrees with pairwise comparison. -/
lemma sortedLE_iff_pairwise (l : List Nat) :
    sortedLE l = true ↔ List.Pairwise (· ≤ ·) l := by
  rw [sortedLE_iff_chain, List.chain'_iff_pairwise]

/-- Membership in an insort result. -/
lemma mem_insort (x : Nat) :
    ∀ (l : List Nat) (y : Nat),
      y ∈ ConsistentHashRing.insort l x ↔ y = x ∨ y ∈ l := by
  intro l
  induction l with
  | nil => intro y; simp [ConsistentHashRing.insort]
  | cons a t ih =>
    intro y
    by_cases h : a ≤ x
    · simp only [ConsistentHashRing.insort, if_pos h, List.mem_cons, ih]
      tauto
    · rw [ConsistentHashRing.insort, if_neg h]
      simp [List.mem_cons]

/-- insort preserves pairwise order. -/
lemma pairwise_insort (x : Nat) :
    ∀ l : List Nat, List.Pairwise (· ≤ ·) l →
      List.Pairwise (· ≤ ·) (ConsistentHashRing.insort l x) := by
  intro l
  induction l with
  | nil => intro _; simp [ConsistentHashRing.insort]
  | cons a t ih =>
    intro hp
    rw [List.pairwise_cons] at hp
    by_cases h : a ≤ x
    · rw [ConsistentHashRing.insort, if_pos h, List.pairwise_cons]
      constructor
      · intro y hy
        rcases (mem_insort x t y).mp hy with rfl | hyt
        · exact h
        · exact hp.1 y hyt
      · exact ih hp.2
    · have hxa : x ≤ a := Nat.le_of_lt (not_le.mp h)
      rw [ConsistentHashRing.insort, if_neg h, List.pairwise_cons]
      constructor
      · intro y hy
        rcases List.mem_cons.mp hy with rfl | hyt
        · exact hxa
        · exact Nat.le_trans hxa (hp.1 y hyt)
      · rw [List.pairwise_cons]
        exact hp

/-- listRemove yields a sublist. -/
lemma listRemove_sublist (x : Nat) :
    ∀ l : List Nat, List.Sublist (ConsistentHashRing.listRemove l x) l := by
  intro l
  induction l with
  | nil => exact List.Sublist.refl _
  | cons y ys ih =>
    by_cases h : y = x
    · rw [ConsistentHashRing.listRemove, if_pos h]
      exact List.sublist_cons_self y ys
    · rw [ConsistentHashRing.listRemove, if_neg h]
      exact List.Sublist.cons₂ y ih

/-- The add_node loop over vnode positions preserves pairwise order
of the ring. -/
lemma pairwise_foldl_addPos (nid : String) :
    ∀ (ps : List Nat) (r : ConsistentHashRing),
      List.Pairwise (· ≤ ·) r.ring →
      List.Pairwise (· ≤ ·)
        ((ps.foldl (fun r p => ConsistentHashRing.addPos r nid p) r)).ring := by
  intro ps
  induction ps with
  | nil => intro r hp; exact hp
  | cons p rest ih =>
    intro r hp
    simp only [List.foldl_cons]
    exact ih _ (pairwise_insort p r.ring hp)

/-- The remove_node loop over positions preserves pairwise order of
the ring. -/
lemma pairwise_foldl_removePos :
    ∀ (ps : List Nat) (r : ConsistentHashRing),
      List.Pairwise (· ≤ ·) r.ring →
      List.Pairwise (· ≤ ·) ((ps.foldl ConsistentHashRing.removePos r)).ring := by
  intro ps
  induction ps with
  | nil => intro r hp; exact hp
  | cons p rest ih =>
    intro r hp
    simp only [List.foldl_cons]
    exact ih _ (List.Pairwise.sublist (listRemove_sublist p r.ring) hp)

/-- One administrative call preserves pairwise order of the ring. -/
lemma pairwise_applyRingOp (hash : String → Nat) (r : ConsistentHashRing)
    (op : RingOp) (hp : List.Pairwise (· ≤ ·) r.ring) :
    List.Pairwise (· ≤ ·) (applyRingOp hash r op).ring := by
  cases op with
  | add nid =>
    rw [applyRingOp, ConsistentHashRing.add_node]
    by_cases h : nid ∈ r.nodes
    · rw [if_pos h]; exact hp
    · rw [if_neg h]
      exact pairwise_foldl_addPos nid _ _ hp
  | remove nid =>
    rw [applyRingOp, ConsistentHashRing.remove_node]
    by_cases h : nid ∈ r.nodes
    · rw [if_pos h]
      exact pairwise_foldl_removePos _ _ hp
    · rw [if_neg h]; exact hp

/-- On a sorted ring the first position is the lowest. -/
lemma headD_le_of_sorted (l : List Nat) (hs : sortedLE l = true) :
    ∀ p ∈ l, l.headD 0 ≤ p := by
  rw [sortedLE_iff_pairwise] at hs
  cases l with
  | nil => intro p hp; cases hp
  | cons a t =>
    intro p hp
    rcases List.mem_cons.mp hp with rfl | hpt
    · exact Nat.le_refl _
    · exact (List.pairwise_cons.mp hs).1 p hpt

/-- Coherence unpacked: every ring position is bound in the position
dict to a registered node. -/
lemma coherent_mem (r : ConsistentHashRing) (hc : coherentB r = true) (p : Nat)
    (hp : p ∈ r.ring) : ∃ n, dGet r.ring_map p = some n ∧ n ∈ r.nodes := by
  rw [coherentB, List.all_eq_true] at hc
  have hcp := hc p hp
  cases hdg : dGet r.ring_map p with
  | none => rw [hdg] at hcp; cases hcp
  | some n =>
    rw [hdg] at hcp
    exact ⟨n, rfl, by simpa using hcp⟩

/-- The indexing step of get_node resolves to the target position:
the first ring position strictly greater than the query, or the first
ring position when the query is at least every position. -/
lemma ring_lookup_core (r : ConsistentHashRing) (x : Nat) (hne : r.ring ≠ []) :
    r.ring[if ConsistentHashRing.bisect_right r.ring x = r.ring.length then 0
      else ConsistentHashRing.bisect_right r.ring x]? = some (targetPos r x) := by
  by_cases hlen : ConsistentHashRing.bisect_right r.ring x = r.ring.length
  · rw [if_pos hlen, targetPos, (bisect_right_eq_length_iff x r.ring).mp hlen]
    cases hr : r.ring with
    | nil => exact absurd hr hne
    | cons a t => simp
  · rw [if_neg hlen, bisect_right_getElem x r.ring, targetPos]
    cases hf : r.ring.find? (fun p => decide (x < p)) with
    | some p => rfl
    | none => exact absurd ((bisect_right_eq_length_iff x r.ring).mpr hf) hlen

/-- On a coherent non-empty ring, get_node returns the node the
position dict binds to the target position, and it is registered. -/
lemma get_node_spec (hash : String → Nat) (r : ConsistentHashRing) (key : String)
    (hc : coherentB r = true) (hne : r.ring ≠ []) :
    ∃ n, dGet r.ring_map (targetPos r (hash key)) = some n ∧ n ∈ r.nodes ∧
      ConsistentHashRing.get_node hash r key = Except.ok (some n) := by
  have hcore := ring_lookup_core r (hash key) hne
  have htmem : targetPos r (hash key) ∈ r.ring := List.getElem?_mem hcore
  obtain ⟨n, hdg, hmem⟩ := coherent_mem r hc _ htmem
  refine ⟨n, hdg, hmem, ?_⟩
  unfold ConsistentHashRing.get_node
  rw [if_neg hne]
  show (match r.ring[if ConsistentHashRing.bisect_right r.ring (hash key) =
          r.ring.length then 0
          else ConsistentHashRing.bisect_right r.ring (hash key)]? with
    | none => Except.error "IndexError"
    | some ring_position =>
      match dGet r.ring_map ring_position with
      | none => Except.error "KeyError"
      | some node_id => Except.ok (some node_id)) = Except.ok (some n)
  rw [hcore]
  simp [hdg]

/-! Claim theorems. -/

/-- C1: for every finite sequence of WAL append calls, each a PUT
carrying a key and a value or a DELETE carrying a key, replay raises
nothing and returns exactly the map obtained by folding that sequence
in append order over an empty map (PUT as upsert, DELETE as removal);
and replay run a second time on the unchanged log returns the
identical map (replay is a pure function of the log content). -/
theorem wal_replay_is_fold_of_appends (calls : List AppendCall) :
    WriteAheadLog.replay (appendCalls [] calls) =
      Except.ok (calls.foldl applyCall []) ∧
    WriteAheadLog.replay (appendCalls [] calls) =
      WriteAheadLog.replay (appendCalls [] calls) := by
  constructor
  · rw [WriteAheadLog.replay, appendCalls_eq calls []]
    simpa using replayLoop_encode calls []
  · rfl

/-- C3 (code bug): the claim states the documented corruption policy
-- every bad record is skipped with a warning and replay never aborts
-- and the docstring and comments of the source promise the same
(handle corrupted lines gracefully, do not crash on corrupted data);
but on a line that parses as non-object JSON (for example a bare 42)
the source raises TypeError when subscripting the parsed value, and
only JSONDecodeError and KeyError are caught, so replay aborts and
every record after the bad line is lost.  First conjunct: replay of a
log with a non-object line between two well-formed PUT lines aborts
with TypeError.  Second conjunct: the same log with an unparseable
line instead replays to both keys, as the claim expects. -/
theorem wal_replay_aborts_on_non_object_line :
    WriteAheadLog.replay
        [WalLine.entry (some "PUT") (some "a") (some "1") (some 0),
          WalLine.nonObject,
          WalLine.entry (some "PUT") (some "b") (some "2") (some 0)] =
      Except.error "TypeError" ∧
    WriteAheadLog.replay
        [WalLine.entry (some "PUT") (some "a") (some "1") (some 0),
          WalLine.malformed,
          WalLine.entry (some "PUT") (some "b") (some "2") (some 0)] =
      Except.ok [("a", "1"), ("b", "2")] := by
  exact ⟨rfl, by decide⟩

/-- C4: on a freshly started StorageEngine with an empty log (startup
succeeds, since an empty log replays without error), the lifecycle
scenario yields v1, then v2 (put overwrites), then true from the
first delete, then None, then false from the second delete. -/
theorem engine_lifecycle_scenario (t1 t2 t3 t4 : Int) :
    Except.map
        (fun e0 => StorageEngine.get (StorageEngine.put e0 "k" "v1" t1) "k")
        (StorageEngine.restore (StorageEngine.mk0 [])) =
      Except.ok (some "v1") ∧
    Except.map
        (fun e0 => StorageEngine.get
          (StorageEngine.put (StorageEngine.put e0 "k" "v1" t1) "k" "v2" t2)
          "k")
        (StorageEngine.restore (StorageEngine.mk0 [])) =
      Except.ok (some "v2") ∧
    Except.map
        (fun e0 => (StorageEngine.delete
          (StorageEngine.put (StorageEngine.put e0 "k" "v1" t1) "k" "v2" t2)
          "k" t3).2)
        (StorageEngine.restore (StorageEngine.mk0 [])) =
      Except.ok true ∧
    Except.map
        (fun e0 => StorageEngine.get
          (StorageEngine.delete
            (StorageEngine.put (StorageEngine.put e0 "k" "v1" t1) "k" "v2" t2)
            "k" t3).1 "k")
        (StorageEngine.restore (StorageEngine.mk0 [])) =
      Except.ok none ∧
    Except.map
        (fun e0 => (StorageEngine.delete
          (StorageEngine.delete
            (StorageEngine.put (StorageEngine.put e0 "k" "v1" t1) "k" "v2" t2)
            "k" t3).1 "k" t4).2)
        (StorageEngine.restore (StorageEngine.mk0 [])) =
      Except.ok false := by
  exact ⟨rfl, rfl, rfl, rfl, rfl⟩

/-- C5: delete of an absent key returns false, appends nothing to the
WAL and leaves the map (the whole engine state) unchanged; delete of a
present key appends exactly one DELETE record, removes the key from
the map and returns true. -/
theorem engine_delete_frame (e : StorageEngine) (k : String) (ts : Int) :
    (StorageEngine.get e k = none →
      StorageEngine.delete e k ts = (e, false)) ∧
    (∀ v, StorageEngine.get e k = some v →
      StorageEngine.delete e k ts =
        ({ e with
            wal := WriteAheadLog.append e.wal "DELETE" k none ts
            store := dDel e.store k }, true)) := by
  constructor
  · intro h
    rw [StorageEngine.get] at h
    rw [StorageEngine.delete, h]
  · intro v h
    rw [StorageEngine.get] at h
    rw [StorageEngine.delete, h]

/-- Witness for C5 at a concrete engine: deleting the present key a
writes one DELETE record and returns true; deleting the absent key b
changes nothing and returns false. -/
theorem engine_delete_frame_witness :
    StorageEngine.delete { wal := [], store := [("a", "1")], closed := false }
        "a" 7 =
      ({ wal := [WalLine.entry (some "DELETE") (some "a") none (some 7)],
         store := [], closed := false }, true) ∧
    StorageEngine.delete { wal := [], store := [("a", "1")], closed := false }
        "b" 7 =
      ({ wal := [], store := [("a", "1")], closed := false }, false) :=
  ⟨(engine_delete_frame { wal := [], store := [("a", "1")], closed := false }
      "a" 7).2 "1" rfl,
    (engine_delete_frame { wal := [], store := [("a", "1")], closed := false }
      "b" 7).1 rfl⟩

/-- C10: after close, every operation behaves exactly as before close:
reads are unchanged, put and delete still mutate the map and append to
the WAL (they commute with close), because no operation consults the
closed flag -- only close itself does, for idempotence. -/
theorem engine_ops_ignore_closed_flag (e : StorageEngine) (k v : String)
    (ts tsd : Int) :
    StorageEngine.get (StorageEngine.close e) k = StorageEngine.get e k ∧
    StorageEngine.existsKey (StorageEngine.close e) k =
      StorageEngine.existsKey e k ∧
    StorageEngine.size (StorageEngine.close e) = StorageEngine.size e ∧
    StorageEngine.put (StorageEngine.close e) k v ts =
      StorageEngine.close (StorageEngine.put e k v ts) ∧
    (StorageEngine.put (StorageEngine.close e) k v ts).wal =
      WriteAheadLog.append e.wal "PUT" k (some v) ts ∧
    StorageEngine.delete (StorageEngine.close e) k tsd =
      (StorageEngine.close (StorageEngine.delete e k tsd).1,
        (StorageEngine.delete e k tsd).2) := by
  obtain ⟨w, s, c⟩ := e
  cases c with
  | false =>
    refine ⟨rfl, rfl, rfl, rfl, rfl, ?_⟩
    cases h : dGet s k with
    | none => simp [StorageEngine.delete, StorageEngine.close, h]
    | some v0 => simp [StorageEngine.delete, StorageEngine.close, h]
  | true =>
    refine ⟨rfl, rfl, rfl, rfl, rfl, ?_⟩
    cases h : dGet s k with
    | none => simp [StorageEngine.delete, StorageEngine.close, h]
    | some v0 => simp [StorageEngine.delete, StorageEngine.close, h]

/-- A small concrete ring used by witnesses: two nodes, one vnode
each, positions 10 and 20. -/
def ringW : ConsistentHashRing :=
  { num_vnodes := 1
    ring := [10, 20]
    ring_map := [(10, "a"), (20, "b")]
    nodes := ["a", "b"] }

/-- C2: on a sorted, coherent, non-empty ring, get_node returns the
node the position dict binds to the target position, where the target
is the first ring position strictly greater than the hash of the key
(a position exactly equal is not chosen, since the search is strict)
and otherwise, wrapping, the first position; the target is a ring
position, and in the wrapping case it is the lowest one.  Sortedness
and coherence hold of every ring reachable by administrative calls
whose vnode positions are mutually distinct. -/
theorem ring_get_node_first_strictly_greater (hash : String → Nat)
    (r : ConsistentHashRing) (key : String)
    (hs : sortedLE r.ring = true) (hc : coherentB r = true)
    (hne : r.ring ≠ []) :
    ConsistentHashRing.get_node hash r key =
      Except.ok (dGet r.ring_map (targetPos r (hash key))) ∧
    targetPos r (hash key) ∈ r.ring ∧
    (r.ring.find? (fun p => decide (hash key < p)) = none →
      ∀ p ∈ r.ring, targetPos r (hash key) ≤ p) := by
  obtain ⟨n, hdg, hmem, heq⟩ := get_node_spec hash r key hc hne
  refine ⟨by rw [heq, hdg], ?_, ?_⟩
  · exact List.getElem?_mem (ring_lookup_core r (hash key) hne)
  · intro hf p hp
    rw [targetPos, hf]
    exact headD_le_of_sorted r.ring hs p hp

/-- Witness for C2: on the concrete two-node ring, a key hashing to 15
is owned by the node at position 20. -/
theorem ring_get_node_first_strictly_greater_witness :
    ConsistentHashRing.get_node (fun _ => 15) ringW "x" =
      Except.ok (some "b") := by
  have h := (ring_get_node_first_strictly_greater (fun _ => 15) ringW "x"
    (by decide) (by decide) (by decide)).1
  rw [h]
  rfl

/-- C6: on a sorted, coherent ring, get_node returns None exactly when
the ring has zero vnodes, and any node it returns is currently
registered.  Coherence is the mutual-distinctness invariant of the
claim: with distinct vnode positions every ring position keeps its
binding to a registered node across add_node and remove_node. -/
theorem ring_get_node_none_iff_empty (hash : String → Nat)
    (r : ConsistentHashRing) (key : String)
    (_hs : sortedLE r.ring = true) (hc : coherentB r = true) :
    (ConsistentHashRing.get_node hash r key = Except.ok none ↔ r.ring = []) ∧
    (∀ n, ConsistentHashRing.get_node hash r key = Except.ok (some n) →
      n ∈ r.nodes) := by
  by_cases hne : r.ring = []
  · refine ⟨⟨fun _ => hne, fun _ => ?_⟩, fun n hn => ?_⟩
    · rw [ConsistentHashRing.get_node, if_pos hne]
    · rw [ConsistentHashRing.get_node, if_pos hne] at hn
      simp at hn
  · obtain ⟨n0, hdg, hmem, heq⟩ := get_node_spec hash r key hc hne
    refine ⟨⟨fun hok => ?_, fun h => absurd h hne⟩, fun n hn => ?_⟩
    · rw [heq] at hok
      simp at hok
    · rw [heq] at hn
      simp only [Except.ok.injEq, Option.some.injEq] at hn
      exact hn ▸ hmem

/-- Witness for C6: on the concrete two-node ring, a key hashing past
every position wraps to the node at the lowest position, which is a
registered node, and the result is not None. -/
theorem ring_get_node_none_iff_empty_witness :
    ConsistentHashRing.get_node (fun _ => 25) ringW "y" =
      Except.ok (some "a") ∧ "a" ∈ ringW.nodes := by
  have h := ring_get_node_none_iff_empty (fun _ => 25) ringW "y"
    (by decide) (by decide)
  exact ⟨by decide, h.2 "a" (by decide)⟩

/-- A sequence of administrative calls preserves pairwise order of
the ring. -/
lemma pairwise_applyRingOps (hash : String → Nat) :
    ∀ (ops : List RingOp) (r : ConsistentHashRing),
      List.Pairwise (· ≤ ·) r.ring →
      List.Pairwise (· ≤ ·) (applyRingOps hash r ops).ring := by
  intro ops
  induction ops with
  | nil => intro r hp; exact hp
  | cons op rest ih =>
    intro r hp
    exact ih _ (pairwise_applyRingOp hash r op hp)

/-- C7: for every sequence of add_node and remove_node calls starting
from a freshly constructed ring, the list of vnode positions is sorted
in ascending order -- since the op sequence is arbitrary this holds
after every call. -/
theorem ring_positions_always_sorted (hash : String → Nat) (V : Nat)
    (ops : List RingOp) :
    sortedLE (applyRingOps hash (ConsistentHashRing.mk0 V) ops).ring = true := by
  rw [sortedLE_iff_pairwise]
  exact pairwise_applyRingOps hash ops _ List.Pairwise.nil

/-- C8 counterexample: with two shards where the close of the first
fails, the loop invokes only the first close -- the second shard is
never closed -- refuting the claim that close continues with the
remaining shards after a failure. -/
theorem shard_close_counterexample :
    (ShardManager.closeAll
        [("shard-0", Except.error "boom"), ("shard-1", Except.ok ())]).2 =
      ["shard-0"] ∧
    ["shard-0"] ≠
      ([("shard-0", Except.error "boom"), ("shard-1", Except.ok ())].map
        Prod.fst) := by
  exact ⟨rfl, by decide⟩

/-- C8 amended: close closes the shards in iteration order; when every
engine close succeeds it closes every shard, but when one fails the
exception propagates and the remaining shards are not closed -- the
loop stops at the first failure. -/
theorem shard_close_stops_at_first_failure :
    (∀ shardCloses : List (String × Except String Unit),
      (∀ p ∈ shardCloses, p.2 = Except.ok ()) →
      ShardManager.closeAll shardCloses =
        (Except.ok (), shardCloses.map Prod.fst)) ∧
    (∀ (pre post : List (String × Except String Unit)) (sid e : String),
      (∀ p ∈ pre, p.2 = Except.ok ()) →
      ShardManager.closeAll (pre ++ (sid, Except.error e) :: post) =
        (Except.error e, pre.map Prod.fst ++ [sid])) := by
  constructor
  · intro l
    induction l with
    | nil => intro _; rfl
    | cons p rest ih =>
      intro hall
      obtain ⟨sid0, c⟩ := p
      have hc : c = Except.ok () := hall (sid0, c) (List.mem_cons_self _ _)
      subst hc
      simp only [ShardManager.closeAll, List.map_cons]
      rw [ih (fun q hq => hall q (List.mem_cons_of_mem _ hq))]
  · intro pre
    induction pre with
    | nil => intro post sid e _; rfl
    | cons p rest ih =>
      intro post sid e hall
      obtain ⟨sid0, c⟩ := p
      have hc : c = Except.ok () := hall (sid0, c) (List.mem_cons_self _ _)
      subst hc
      simp only [List.cons_append, ShardManager.closeAll, List.map_cons,
        List.append_eq]
      rw [ih post sid e (fun q hq => hall q (List.mem_cons_of_mem _ hq))]

/-- Witness for the amended C8: two successful closes close both
shards; a failure at the second of three shards closes the first two
only and propagates the error. -/
theorem shard_close_stops_at_first_failure_witness :
    ShardManager.closeAll [("s0", Except.ok ()), ("s1", Except.ok ())] =
      (Except.ok (), ["s0", "s1"]) ∧
    ShardManager.closeAll
        [("s0", Except.ok ()), ("s1", Except.error "disk"),
          ("s2", Except.ok ())] =
      (Except.error "disk", ["s0", "s1"]) :=
  ⟨shard_close_stops_at_first_failure.1
      [("s0", Except.ok ()), ("s1", Except.ok ())] (by decide),
    shard_close_stops_at_first_failure.2
      [("s0", Except.ok ())] [("s2", Except.ok ())] "s1" "disk" (by decide)⟩

/-- C9 counterexample: construction performs a filesystem action,
creating the data directory, so its effect trace is non-empty --
refuting the claim that construction creates, reads or modifies no
file or directory. -/
theorem shard_ctor_counterexample :
    (ShardManager.mk0 ["shard-0"] "data" 150).2 = [FsEffect.makedirs "data"] ∧
    (ShardManager.mk0 ["shard-0"] "data" 150).2 ≠ [] := by
  exact ⟨rfl, by decide⟩

/-- C9 amended: construction performs exactly one filesystem action,
creating the base data directory (an idempotent mkdir); it touches no
file -- WAL files are only created, read or appended at startup. -/
theorem shard_ctor_only_makedirs (shard_ids : List String) (data_dir : String)
    (num_vnodes : Nat) :
    (ShardManager.mk0 shard_ids data_dir num_vnodes).2 =
      [FsEffect.makedirs data_dir] ∧
    (∀ p, FsEffect.ensureFile p ∉
      (ShardManager.mk0 shard_ids data_dir num_vnodes).2) := by
  refine ⟨rfl, ?_⟩
  intro p hp
  simp [ShardManager.mk0] at hp
